import Mathlib

set_option allowUnsafeReducibility true in
attribute [semireducible] Rat.mul Rat.add Rat.sub Rat.div Rat.inv Rat.ofScientific

/-!
Verification of the face-validation service (Tutortoise/face-validation-service).

Shallow embedding conventions:
* Go `float32` / `float64` values are modelled as exact rationals (`ℚ`).  All
  claims settled below are stable under this idealisation, except the one that
  is explicitly about IEEE-754 bit patterns; that one is modelled bit-exactly
  on `Nat` (see the SIMD section).
* Go `int32` arithmetic is modelled on `Int`, with an explicit `wrap32` where
  the source performs 32-bit arithmetic that can overflow.
* A Go slice `[]float32` is modelled as a length plus an index function
  (`Slice`); an out-of-range read is a run-time panic, modelled by the
  `indexOutOfRange` error.
* Fallible Go code returns `Except`.
* The two build profiles of the postprocessor (6×1344 grid with input size 256
  and threshold 0.8, and 5×8400 grid with input size 640 and threshold 0.6)
  are embedded as two functions sharing the per-cell core, exactly as the two
  source variants share their loop body text.
-/

namespace FaceValidation

/-- A `[4]int32` bounding box `(x1, y1, x2, y2)` (the `BBox` field of
`models.Detection`). -/
structure Box where
  x1 : Int
  y1 : Int
  x2 : Int
  y2 : Int
deriving DecidableEq, Repr

/-- `models.Detection`: a box in original-image pixel space plus a confidence. -/
structure Detection where
  bbox : Box
  confidence : ℚ
deriving DecidableEq, Repr

/-- Failure modes of the postprocessing stage: the explicit length-mismatch
`error` return of the 6×1344 `processPredictions`, and a Go index-out-of-range
panic from a slice access. -/
inductive GoErr where
  | lengthMismatch (got expected : Nat)
  | indexOutOfRange
deriving DecidableEq, Repr

deriving instance DecidableEq for Except

/-- A Go `[]float32` slice: a length and an index function. -/
structure Slice where
  len : Nat
  get : Nat → ℚ

/-- Reading `s[i]` from a Go slice panics when `i ≥ len(s)`. -/
def Slice.read (s : Slice) (i : Nat) : Except GoErr ℚ :=
  if i < s.len then .ok (s.get i) else .error .indexOutOfRange

/-- Go `minF32` from src/unnamed/part_005. -/
def minF32 (a b : ℚ) : ℚ := if a < b then a else b

/-- Go `max32 (a, b float32)` from src/unnamed/part_005. -/
def max32 (a b : ℚ) : ℚ := if a > b then a else b

/-- Go `int32(f)` conversion: truncation toward zero.  (For out-of-range
values the Go conversion is implementation-defined; it is modelled as plain
truncation on `Int`.) -/
def int32ofF32 (q : ℚ) : Int := if 0 ≤ q then ⌊q⌋ else ⌈q⌉

/-- `calculateBBox` from src/unnamed/part_005 lines 256-278 (part_004 lines
271-293 are textually identical).  The package constants `InputWidth = W` and
`InputHeight = H` differ between the two build profiles (256 resp. 640), so
they are arguments here. -/
def calculateBBox (cx cy w h : ℚ) (origWidth origHeight : ℚ) (W H : ℚ) : Box :=
  let scaleX := origWidth / W
  let scaleY := origHeight / H
  let centerX := cx * W
  let centerY := cy * H
  let width := w * W
  let height := h * H
  let x1 := (centerX - width / 2) * scaleX
  let y1 := (centerY - height / 2) * scaleY
  let x2 := (centerX + width / 2) * scaleX
  let y2 := (centerY + height / 2) * scaleY
  ⟨int32ofF32 (max32 0 x1), int32ofF32 (max32 0 y1),
   int32ofF32 (minF32 origWidth x2), int32ofF32 (minF32 origHeight y2)⟩

/-- The per-cell body of both `processPredictions` loops (part_004 lines
217-236, part_005 lines 203-221): read the plane-4 confidence of cell `i`
and, when it passes the threshold, read planes 0-3 and emit one detection. -/
def processCell (s : Slice) (grid : Nat) (thr W H ow oh : ℚ) (i : Nat) :
    Except GoErr (List Detection) := do
  let conf ← s.read (4 * grid + i)
  if thr ≤ conf then
    let cx ← s.read i
    let cy ← s.read (grid + i)
    let w ← s.read (2 * grid + i)
    let h ← s.read (3 * grid + i)
    pure [⟨calculateBBox cx cy w h ow oh W H, conf⟩]
  else
    pure []

/-- The sequential semantics of the prediction loop: process the given cell
indices in order and concatenate the per-cell results.  (The Go code splits
the index range into chunks handed to a worker pool and concatenates the
local result lists; the final confidence sort makes the gathered order
irrelevant, and the theorems below consume the output up to permutation.) -/
def processCells (s : Slice) (grid : Nat) (thr W H ow oh : ℚ) :
    List Nat → Except GoErr (List Detection)
  | [] => .ok []
  | i :: rest => do
    let d ← processCell s grid thr W H ow oh i
    let ds ← processCells s grid thr W H ow oh rest
    pure (d ++ ds)

/-- Fork-join evaluation of the cell range `[lo, lo+n)`, modelling the Go
chunked worker split: ranges of size ≥ 2 are halved recursively (the `fuel`
argument only bounds the recursion depth; `processRange_eq_processCells`
proves this equal to the sequential loop whenever `n ≤ 2 ^ fuel`). -/
def processRange (s : Slice) (grid : Nat) (thr W H ow oh : ℚ) :
    Nat → Nat → Nat → Except GoErr (List Detection)
  | _, _, 0 => .ok []
  | _, lo, 1 => processCell s grid thr W H ow oh lo
  | 0, _, _ => .ok []
  | fuel + 1, lo, n => do
    let a ← processRange s grid thr W H ow oh fuel lo (n / 2)
    let b ← processRange s grid thr W H ow oh fuel (lo + n / 2) (n - n / 2)
    pure (a ++ b)

/-- One insertion step of the confidence sort; the comparator is the Go
`sort.Slice` comparator `detections[i].Confidence > detections[j].Confidence`. -/
def insertByConfidence (d : Detection) : List Detection → List Detection
  | [] => [d]
  | e :: es =>
    if e.confidence < d.confidence then d :: e :: es else e :: insertByConfidence d es

/-- `sortDetectionsByConfidence` (part_005 lines 280-284): sort by confidence
descending.  Go uses an unspecified unstable sort with the strict `>`
comparator; insertion sort realises the same contract (a permutation of the
input that is non-increasing in confidence). -/
def sortDetectionsByConfidence : List Detection → List Detection
  | [] => []
  | d :: ds => insertByConfidence d (sortDetectionsByConfidence ds)

/-- The common trunk of both `processPredictions` variants after any length
guard: run the cell loop over the whole grid, then sort the gathered
detections by confidence when the list is non-empty (the Go
`if len(detections) > 0 { sortDetectionsByConfidence(detections) }`). -/
def processPredictionsCore (s : Slice) (grid : Nat) (thr W H ow oh : ℚ) :
    Except GoErr (List Detection) := do
  let ds ← processRange s grid thr W H ow oh 32 0 grid
  pure (if ds.isEmpty then ds else sortDetectionsByConfidence ds)

/-- `processPredictions` of the 6×1344 build profile (src/unnamed/part_004
lines 186-269; package constants `InputWidth = InputHeight = 256`,
`ConfThreshold = 0.8`).  The length guard is the code's
`if len(predictions) != expectedSize` with `expectedSize = 6 * 1344`. -/
def processPredictions1344 (s : Slice) (origWidth origHeight : ℚ) :
    Except GoErr (List Detection) :=
  if s.len ≠ 6 * 1344 then .error (.lengthMismatch s.len (6 * 1344))
  else processPredictionsCore s 1344 (4/5) 256 256 origWidth origHeight

/-- `processPredictions` of the 5×8400 build profile (src/unnamed/part_005
lines 176-254; package constants `InputWidth = InputHeight = 640`,
`ConfThreshold = 0.6`).  Note: this variant has no length guard at all. -/
def processPredictions8400 (s : Slice) (origWidth origHeight : ℚ) :
    Except GoErr (List Detection) :=
  processPredictionsCore s 8400 (3/5) 640 640 origWidth origHeight

/-- The detection a passing cell `i` contributes, phrased directly in terms of
the raw planes (used by the statements about the postprocessor output). -/
def cellDetection (s : Slice) (grid : Nat) (W H ow oh : ℚ) (i : Nat) : Detection :=
  ⟨calculateBBox (s.get i) (s.get (grid + i)) (s.get (2 * grid + i))
      (s.get (3 * grid + i)) ow oh W H,
   s.get (4 * grid + i)⟩

/-- `[lo, lo+n)` as a list, for stating which cells the loop visits. -/
def rangeFrom : Nat → Nat → List Nat
  | _, 0 => []
  | lo, n + 1 => lo :: rangeFrom (lo + 1) n

/-- The detections of all passing cells of `idxs`, in cell order. -/
def passingDetections (s : Slice) (grid : Nat) (thr W H ow oh : ℚ)
    (idxs : List Nat) : List Detection :=
  idxs.filterMap fun i =>
    if thr ≤ s.get (4 * grid + i) then some (cellDetection s grid W H ow oh i) else none

/-- The box-decoding rule exactly as claim C1 states it (spec §4.4 steps 2-3):
convert the raw plane values to corners directly — `x1m = cx − w/2` and so on,
*without* first rescaling them by the input size — then multiply x by
`scaleX = origWidth / W` and y by `scaleY = origHeight / H`, then clamp and
truncate as in step 4. -/
def specBBoxClaimed (cx cy w h : ℚ) (origWidth origHeight : ℚ) (W H : ℚ) : Box :=
  let scaleX := origWidth / W
  let scaleY := origHeight / H
  let x1 := (cx - w / 2) * scaleX
  let y1 := (cy - h / 2) * scaleY
  let x2 := (cx + w / 2) * scaleX
  let y2 := (cy + h / 2) * scaleY
  ⟨int32ofF32 (max32 0 x1), int32ofF32 (max32 0 y1),
   int32ofF32 (minF32 origWidth x2), int32ofF32 (minF32 origHeight y2)⟩

/-- The box-decoding rule as amended: the raw plane values are first
multiplied by the model input size (`W` for x and width, `H` for y and
height, i.e. they are treated as normalized), then converted from center form
to corners, then rescaled by `scaleX`/`scaleY`, clamped and truncated. -/
def specBBoxAmended (cx cy w h : ℚ) (origWidth origHeight : ℚ) (W H : ℚ) : Box :=
  let x1 := (cx * W - (w * W) / 2) * (origWidth / W)
  let y1 := (cy * H - (h * H) / 2) * (origHeight / H)
  let x2 := (cx * W + (w * W) / 2) * (origWidth / W)
  let y2 := (cy * H + (h * H) / 2) * (origHeight / H)
  ⟨int32ofF32 (max32 0 x1), int32ofF32 (max32 0 y1),
   int32ofF32 (minF32 origWidth x2), int32ofF32 (minF32 origHeight y2)⟩

/-- A concrete 6×1344 output buffer: cell 0 carries center `(0.5, 0.5)`,
size `(0.25, 0.25)` and confidence `1`; every other cell has confidence `0`. -/
def buf1344one : Slice :=
  ⟨6 * 1344, fun i =>
    if i = 0 then 1/2 else if i = 1344 then 1/2
    else if i = 2688 then 1/4 else if i = 4032 then 1/4
    else if i = 5376 then 1 else 0⟩

/-- A concrete 6×1344 output buffer whose single passing cell (cell 0) has a
*negative* raw width and height (`cx = cy = 0`, `w = h = -4`, confidence 1). -/
def buf1344neg : Slice :=
  ⟨6 * 1344, fun i => if i = 2688 then -4 else if i = 4032 then -4
    else if i = 5376 then 1 else 0⟩

/-- A concrete buffer of length `5·8400 + 1 = 42001` (one longer than the
expected size): the plane-4 confidence of cell 0 is `1`, everything else `0`. -/
def buf8400long : Slice := ⟨42001, fun i => if i = 33600 then 1 else 0⟩

/-- The empty buffer. -/
def bufEmpty : Slice := ⟨0, fun _ => 0⟩

/-! ### Clustering (src/web/clustering.go) -/

/-- `IouThreshold = 0.45` (clustering.go line 10). -/
def IouThreshold : ℚ := 45 / 100

/-- 32-bit two's-complement wrap-around, for Go `int32` arithmetic. -/
def wrap32 (z : Int) : Int := (z + 2 ^ 31) % 2 ^ 32 - 2 ^ 31

/-- `calculateIOU` (clustering.go lines 94-110).  The intersection is computed
in float64 from the exact corner values (modelled exactly on `ℚ`); the two
areas are computed in Go `int32` arithmetic — hence the `wrap32`s — and then
widened to float64. -/
def calculateIOU (box1 box2 : Box) : ℚ :=
  let x1 := max box1.x1 box2.x1
  let y1 := max box1.y1 box2.y1
  let x2 := min box1.x2 box2.x2
  let y2 := min box1.y2 box2.y2
  if x2 ≤ x1 ∨ y2 ≤ y1 then 0
  else
    let intersection : ℚ := ((x2 - x1) * (y2 - y1) : Int)
    let area1 : ℚ := (wrap32 (wrap32 (box1.x2 - box1.x1) * wrap32 (box1.y2 - box1.y1)) : Int)
    let area2 : ℚ := (wrap32 (wrap32 (box2.x2 - box2.x1) * wrap32 (box2.y2 - box2.y1)) : Int)
    intersection / (area1 + area2 - intersection)

/-- A well-formed detection box for the IoU laws: nondegenerate corners in a
coordinate range (`0 ≤ x1 < x2 ≤ 46340`, likewise for y) where the `int32`
area products cannot overflow. -/
def Box.wf (b : Box) : Prop :=
  0 ≤ b.x1 ∧ b.x1 < b.x2 ∧ b.x2 ≤ 46340 ∧ 0 ≤ b.y1 ∧ b.y1 < b.y2 ∧ b.y2 ≤ 46340

instance (b : Box) : Decidable b.wf := by
  unfold Box.wf
  infer_instance

/-- Two boxes whose interiors do not intersect. -/
def Box.disjoint (a b : Box) : Prop :=
  min a.x2 b.x2 ≤ max a.x1 b.x1 ∨ min a.y2 b.y2 ≤ max a.y1 b.y1

instance (a b : Box) : Decidable (a.disjoint b) := by
  unfold Box.disjoint
  infer_instance

/-- `mergeBoxes` (clustering.go lines 112-126): the axis-aligned union of a
cluster's boxes (`min32`/`max32` on `int32` are exact `Int` min/max). -/
def mergeBoxes (boxes : List Box) : Box :=
  match boxes with
  | [] => ⟨0, 0, 0, 0⟩
  | b :: rest =>
    rest.foldl (fun r x => ⟨min r.x1 x.x1, min r.y1 x.y1, max r.x2 x.x2, max r.y2 x.y2⟩) b

/-- The cluster map of `processClusters`, modelled as an association list in
key-insertion order (a Go `map[int][][4]int32`; insertion order is one
admissible iteration order of a Go map, and the statements proved below are
insensitive to the order a particular run would use). -/
abbrev ClusterMap := List (Int × List Box)

/-- Appending a box to a cluster entry (`clusterMap[cluster] = append(...)`). -/
def mapAppend (m : ClusterMap) (k : Int) (b : Box) : ClusterMap :=
  match m with
  | [] => [(k, [b])]
  | (q, bs) :: rest =>
    if q = k then (q, bs ++ [b]) :: rest else (q, bs) :: mapAppend rest k b

/-- The noise-absorption scan of `processClusters` (lines 64-75): does some
box already placed in some cluster overlap `b` with IoU above the threshold?
(The Go code then appends `b` to a *local copy* of that cluster's slice, so
the cluster map itself is never extended — only the boolean outcome of this
scan is observable.) -/
def anyClusterOverlap (m : ClusterMap) (b : Box) : Bool :=
  m.any fun kb => kb.2.any fun existing => IouThreshold < calculateIOU b existing

/-- The main loop of `processClusters` (lines 59-82) over `(bbox, clusterId)`
pairs, carrying the cluster map and the accumulated standalone noise boxes. -/
def processClustersLoop : List (Box × Int) → ClusterMap → List Box → ClusterMap × List Box
  | [], m, final => (m, final)
  | (b, c) :: rest, m, final =>
    if c = -1 then
      if anyClusterOverlap m b then processClustersLoop rest m final
      else processClustersLoop rest m (final ++ [b])
    else processClustersLoop rest (mapAppend m c b) final

/-- `processClusters` (clustering.go lines 54-92): group boxes by cluster id,
treat `-1` as noise (absorbed if overlapping an already-clustered box, kept
as a standalone box otherwise), then emit the merge of every non-empty
cluster. -/
def processClusters (detections : List Detection) (clusters : List Int) : List Box :=
  let pairs := (detections.map Detection.bbox).zip clusters
  let (m, final) := processClustersLoop pairs [] []
  final ++ (m.filter fun kb => ¬ kb.2.isEmpty).map fun kb => mergeBoxes kb.2

/-- Reference function for the noise pass: walk the pairs keeping the list of
already-clustered boxes `B`; a noise box that overlaps some box of `B` above
the IoU threshold is dropped, any other noise box is kept. -/
def keptNoise : List (Box × Int) → List Box → List Box
  | [], _ => []
  | (b, c) :: rest, B =>
    if c = -1 then
      if B.any (fun e => IouThreshold < calculateIOU b e) then keptNoise rest B
      else b :: keptNoise rest B
    else keptNoise rest (B ++ [b])

/-- The distinct non-noise cluster ids of a pair list, in order of first
occurrence. -/
def clusterIds (pairs : List (Box × Int)) : List Int :=
  pairs.foldl (fun acc p => if p.2 = -1 ∨ p.2 ∈ acc then acc else acc ++ [p.2]) []

/-- All boxes labelled with cluster id `k`, in input order. -/
def groupBoxes (pairs : List (Box × Int)) (k : Int) : List Box :=
  pairs.filterMap fun p => if p.2 = k then some p.1 else none

/-- All boxes stored in the cluster map, in entry order. -/
def boxesOf (m : ClusterMap) : List Box := (m.map Prod.snd).flatten

/-- The cluster map after folding the grouping step of the loop over `pairs`
starting from `m` (noise pairs leave the map unchanged; the rest are
`mapAppend`ed). -/
def extendMap (m : ClusterMap) (pairs : List (Box × Int)) : ClusterMap :=
  pairs.foldl (fun mm p => if p.2 = -1 then mm else mapAppend mm p.2 p.1) m

/-! ### Session pool (src/unnamed/part_006) -/

/-- The `PoolMetrics` counters (part_006 lines 28-35; the accumulated
`waitTime` duration is wall-clock time and is not part of any claim). -/
structure PoolMetrics where
  inUse : Int
  totalAcquired : Int
  totalReleased : Int
  acquireFailures : Int
deriving DecidableEq, Repr

/-- Pool state relevant to the metrics invariant: the `closed` flag plus the
metrics. -/
structure PoolState where
  closed : Bool
  metrics : PoolMetrics
deriving DecidableEq, Repr

/-- The observable pool operations: a successful `Acquire`, an `Acquire`
ending in timeout, an `Acquire` ended by context cancellation, a `Release`,
and `Destroy`. -/
inductive PoolOp where
  | acquireSuccess
  | acquireTimeout
  | acquireCancelled
  | release
  | destroy
deriving DecidableEq, Repr

/-- Effect of each operation on the pool state, transcribed from `Acquire`
(part_006 lines 65-92: the closed check returns before any metric update; a
lease increments `inUse` and `totalAcquired`; a timeout increments
`acquireFailures`; cancellation touches nothing), `Release` (lines 94-106:
when closed the session is destroyed and *no* metric is touched, otherwise
`inUse` is decremented and `totalReleased` incremented) and `Destroy`
(lines 108-123: sets `closed`). -/
def poolStep (st : PoolState) : PoolOp → PoolState
  | .acquireSuccess =>
    if st.closed then st
    else { st with metrics := { st.metrics with
            inUse := st.metrics.inUse + 1,
            totalAcquired := st.metrics.totalAcquired + 1 } }
  | .acquireTimeout =>
    if st.closed then st
    else { st with metrics := { st.metrics with
            acquireFailures := st.metrics.acquireFailures + 1 } }
  | .acquireCancelled => st
  | .release =>
    if st.closed then st
    else { st with metrics := { st.metrics with
            inUse := st.metrics.inUse - 1,
            totalReleased := st.metrics.totalReleased + 1 } }
  | .destroy => { st with closed := true }

/-- A fresh pool: open, all counters zero (`NewModelSessionPool`,
part_006 lines 37-63). -/
def initialPoolState : PoolState := ⟨false, 0, 0, 0, 0⟩

/-- The pool state after a sequence of operations. -/
def runPool (ops : List PoolOp) : PoolState :=
  ops.foldl poolStep initialPoolState

/-! ### HTTP surface (src/unnamed/part_000) -/

/-- The three request-body handlers `handleValidateFace` can dispatch to. -/
inductive BodyHandler where
  | json
  | multipart
  | raw
deriving DecidableEq, Repr

/-- The `Content-Type` dispatch of `handleValidateFace` (part_000 lines
231-238): a `switch` comparing the header value for *exact* string
equality. -/
def dispatchContentType (contentType : String) : BodyHandler :=
  if contentType = "application/json" then .json
  else if contentType = "multipart/form-data" then .multipart
  else .raw

/-- `getFaceValidationMessage` (part_000 lines 340-349).  The multi-face
branch is `fmt.Sprintf("Multiple faces detected: %d", faceCount)`. -/
def getFaceValidationMessage (faceCount : Nat) : String :=
  if faceCount = 0 then "No faces detected"
  else if faceCount = 1 then "Valid single face detected"
  else "Multiple faces detected: " ++ Nat.repr faceCount

/-- The 200-response body (part_000 lines 272-282). -/
structure ValidationResponse where
  is_valid : Bool
  face_count : Nat
  message : String
deriving DecidableEq, Repr

/-- Construction of the 200 response from the final face count
(part_000 lines 273-278). -/
def validationResponseOf (faceCount : Nat) : ValidationResponse :=
  ⟨faceCount == 1, faceCount, getFaceValidationMessage faceCount⟩

/-! ### SIMD preprocessing (src/unnamed/part_001 assembly, src/web/detections/simd.go)

The scalar reference (`processGeneric`) computes `float32(v) / 255.0` for each
8-bit channel sample `v`.  The AVX-512 vector loop of the part_001 assembly
file zero-extends 16 source bytes to 32-bit lanes (`VPMOVZXBD`), broadcasts
the 32-bit constant `0x3B808081` (the IEEE-754 bits of `1.0/255.0`, per the
file's own comment) and then multiplies with `VPMULLD` — a *packed 32-bit
integer* multiply — storing the low 32 bits of the integer product as if they
were float32 values.  Both sides are modelled bit-exactly below. -/

/-- The 32-bit constant `float255inv` of the assembly file (its comment says
`1.0/255.0`). -/
def float255invBits : Nat := 0x3B808081

/-- One 32-bit lane of the AVX-512 vector loop: zero-extended byte,
integer-multiplied (`VPMULLD`) with the broadcast constant, low 32 bits
stored. -/
def processRowAVX512Lane (v : Nat) : Nat := (v % 256) * float255invBits % 2 ^ 32

/-- The value the scalar fallback (`processGeneric`, simd.go lines 89-100)
stores for an 8-bit channel sample `v`: `float32(v) / 255.0` (exact in
float32 for `v = 255`, where it is exactly `1.0`). -/
def processGenericValue (v : Nat) : ℚ := (v % 256 : Nat) / 255

/-- Decoding an IEEE-754 binary32 bit pattern into its exact rational value
(finite range; `e = 255` patterns are infinities/NaNs and do not arise in the
statements below). -/
def decodeF32bits (b : Nat) : ℚ :=
  let sign : ℚ := if b / 2 ^ 31 % 2 = 0 then 1 else -1
  let e : Nat := b / 2 ^ 23 % 256
  let m : Nat := b % 2 ^ 23
  if e = 0 then sign * (m : ℚ) / 2 ^ 149
  else sign * ((2 ^ 23 + m : Nat) : ℚ) / 2 ^ 23 *
    (if 127 ≤ e then ((2 ^ (e - 127) : Nat) : ℚ) else 1 / ((2 ^ (127 - e) : Nat) : ℚ))

/-- `ulp(1.0)` in binary32: the spacing of floats in `[1, 2)`. -/
def ulpAtOne : ℚ := 1 / 2 ^ 23

/-! ## Theorems -/

/-- Every pool operation preserves `totalAcquired − totalReleased = inUse`. -/
theorem poolStep_preserves_balance (st : PoolState) (op : PoolOp)
    (h : st.metrics.totalAcquired - st.metrics.totalReleased = st.metrics.inUse) :
    (poolStep st op).metrics.totalAcquired - (poolStep st op).metrics.totalReleased =
      (poolStep st op).metrics.inUse := by
  cases op with
  | acquireSuccess =>
    by_cases hc : st.closed
    · simpa [poolStep, hc] using h
    · simp [poolStep, hc]; omega
  | acquireTimeout =>
    by_cases hc : st.closed
    · simpa [poolStep, hc] using h
    · simpa [poolStep, hc] using h
  | acquireCancelled => simpa [poolStep] using h
  | release =>
    by_cases hc : st.closed
    · simpa [poolStep, hc] using h
    · simp [poolStep, hc]; omega
  | destroy => simpa [poolStep] using h

/-- Folding `poolStep` from any balanced state stays balanced. -/
theorem poolFold_preserves_balance (ops : List PoolOp) :
    ∀ st : PoolState,
      st.metrics.totalAcquired - st.metrics.totalReleased = st.metrics.inUse →
      (ops.foldl poolStep st).metrics.totalAcquired -
          (ops.foldl poolStep st).metrics.totalReleased =
        (ops.foldl poolStep st).metrics.inUse := by
  induction ops with
  | nil => intro st h; exact h
  | cons op rest ih =>
    intro st h
    exact ih (poolStep st op) (poolStep_preserves_balance st op h)

/-- C4: for every sequence of pool operations — in particular every sequence
of successful `Acquire`s each followed by its matching `Release`, including a
`Release` performed after the pool has been destroyed — the metrics satisfy
`totalAcquired − totalReleased = inUse` at every quiescent point. -/
theorem claim4_invariant (ops : List PoolOp) :
    (runPool ops).metrics.totalAcquired - (runPool ops).metrics.totalReleased =
      (runPool ops).metrics.inUse :=
  poolFold_preserves_balance ops initialPoolState rfl

/-- C10: the request-body dispatch compares `Content-Type` by exact string
equality, so every header value other than `"application/json"` and
`"multipart/form-data"` — including real multipart values carrying a
`boundary` parameter — is handled as raw image bytes and the multipart parser
is never reached. -/
theorem claim10_dispatch (contentType : String)
    (h1 : contentType ≠ "application/json")
    (h2 : contentType ≠ "multipart/form-data") :
    dispatchContentType contentType = .raw := by
  simp [dispatchContentType, h1, h2]

/-- Witness for C10 at the header a real multipart client sends. -/
theorem claim10_witness :
    ("multipart/form-data; boundary=----WebKitFormBoundaryA1B2" ≠ "application/json"
      ∧ "multipart/form-data; boundary=----WebKitFormBoundaryA1B2" ≠ "multipart/form-data")
    ∧ dispatchContentType "multipart/form-data; boundary=----WebKitFormBoundaryA1B2" = .raw :=
  ⟨⟨by decide, by decide⟩, claim10_dispatch _ (by decide) (by decide)⟩

/-- C8 counterexample: there is no triple of *fixed* strings covering the
zero-, single- and multi-face messages, because the multi-face message
interpolates the face count (`"Multiple faces detected: %d"`): the responses
for 2 and for 3 faces carry different message strings. -/
theorem claim8_counterexample :
    ¬ ∃ s0 s1 sm : String, ∀ n : Nat,
      (validationResponseOf n).message =
        if n = 0 then s0 else if n = 1 then s1 else sm := by
  rintro ⟨s0, s1, sm, h⟩
  have h2 := h 2
  have h3 := h 3
  simp only [validationResponseOf] at h2 h3
  norm_num at h2 h3
  exact absurd (h2.trans h3.symm) (by decide)

/-- C8 as amended: the 200 response satisfies `is_valid = (n == 1)` and
`face_count = n`; the message is a fixed string for zero faces and a fixed
string for a single face, while for `n ≥ 2` faces it is the fixed prefix
`"Multiple faces detected: "` followed by the decimal face count (not a fixed
string). -/
theorem claim8_amended (n : Nat) :
    (validationResponseOf n).face_count = n
    ∧ ((validationResponseOf n).is_valid = true ↔ n = 1)
    ∧ (n = 0 → (validationResponseOf n).message = "No faces detected")
    ∧ (n = 1 → (validationResponseOf n).message = "Valid single face detected")
    ∧ (2 ≤ n →
        (validationResponseOf n).message = "Multiple faces detected: " ++ Nat.repr n) := by
  refine ⟨rfl, ?_, ?_, ?_, ?_⟩
  · simp [validationResponseOf]
  · intro h; simp [validationResponseOf, getFaceValidationMessage, h]
  · intro h; simp [validationResponseOf, getFaceValidationMessage, h]
  · intro h
    have h0 : n ≠ 0 := by omega
    have h1 : n ≠ 1 := by omega
    simp [validationResponseOf, getFaceValidationMessage, h0, h1]

/-- Witness for C8 at `n = 2`. -/
theorem claim8_witness :
    (validationResponseOf 2).face_count = 2
    ∧ ((validationResponseOf 2).is_valid = true ↔ 2 = 1)
    ∧ (2 = 0 → (validationResponseOf 2).message = "No faces detected")
    ∧ (2 = 1 → (validationResponseOf 2).message = "Valid single face detected")
    ∧ (2 ≤ 2 →
        (validationResponseOf 2).message = "Multiple faces detected: " ++ Nat.repr 2) :=
  claim8_amended 2

/-- C9 (code-bug evidence): for the channel byte 255 the scalar fallback
stores exactly `1.0` (bits `0x3F800000`), while the AVX-512 vector loop —
whose own constant is documented as `1.0/255.0` and indeed decodes to the
binary32 nearest value of `1/255` — stores the *integer* product bits
`1157628031`, which decode to `8388735/4096 ≈ 2048.03`.  The two disagree by
far more than one ulp, so the fast path does not refine the scalar path. -/
theorem claim9_divergence :
    decodeF32bits float255invBits = 8421505 / 2147483648
    ∧ processGenericValue 255 = 1
    ∧ decodeF32bits 0x3F800000 = 1
    ∧ processRowAVX512Lane 255 = 1157628031
    ∧ decodeF32bits (processRowAVX512Lane 255) = 8388735 / 4096
    ∧ ulpAtOne < decodeF32bits (processRowAVX512Lane 255) - processGenericValue 255 := by
  refine ⟨by decide, by decide, by decide, by decide, by decide, by decide⟩

/-- `wrap32` is the identity on values representable in `int32`. -/
theorem wrap32_eq_of_mem (z : Int) (h1 : -(2 ^ 31) ≤ z) (h2 : z < 2 ^ 31) :
    wrap32 z = z := by
  unfold wrap32
  omega

/-- For a well-formed box, the `int32` area arithmetic does not wrap. -/
theorem area_eq_of_wf (b : Box) (h : b.wf) :
    wrap32 (wrap32 (b.x2 - b.x1) * wrap32 (b.y2 - b.y1)) =
      (b.x2 - b.x1) * (b.y2 - b.y1) := by
  obtain ⟨h1, h2, h3, h4, h5, h6⟩ := h
  have hx : wrap32 (b.x2 - b.x1) = b.x2 - b.x1 := wrap32_eq_of_mem _ (by omega) (by omega)
  have hy : wrap32 (b.y2 - b.y1) = b.y2 - b.y1 := wrap32_eq_of_mem _ (by omega) (by omega)
  rw [hx, hy]
  have hub : (b.x2 - b.x1) * (b.y2 - b.y1) ≤ 46340 * 46340 :=
    mul_le_mul (by omega) (by omega) (by omega) (by norm_num)
  have hlb : 0 ≤ (b.x2 - b.x1) * (b.y2 - b.y1) :=
    mul_nonneg (by omega) (by omega)
  exact wrap32_eq_of_mem _ (by omega) (by omega)

/-- IoU is symmetric in its two boxes (unconditionally: both the intersection
test and the area sum are symmetric expressions). -/
theorem calculateIOU_comm (a b : Box) : calculateIOU a b = calculateIOU b a := by
  simp only [calculateIOU]
  rw [max_comm a.x1 b.x1, max_comm a.y1 b.y1, min_comm a.x2 b.x2, min_comm a.y2 b.y2]
  split
  · rfl
  · ring_nf

/-- For well-formed boxes the IoU value lies in `[0, 1]`. -/
theorem calculateIOU_mem_unit (a b : Box) (ha : a.wf) (hb : b.wf) :
    0 ≤ calculateIOU a b ∧ calculateIOU a b ≤ 1 := by
  simp only [calculateIOU]
  split
  · norm_num
  · rename_i hguard
    push_neg at hguard
    obtain ⟨hx, hy⟩ := hguard
    rw [area_eq_of_wf a ha, area_eq_of_wf b hb]
    obtain ⟨ha1, ha2, ha3, ha4, ha5, ha6⟩ := ha
    obtain ⟨hb1, hb2, hb3, hb4, hb5, hb6⟩ := hb
    set ix : Int := min a.x2 b.x2 - max a.x1 b.x1 with hix
    set iy : Int := min a.y2 b.y2 - max a.y1 b.y1 with hiy
    have hixpos : 0 < ix := by simp only [hix]; omega
    have hiypos : 0 < iy := by simp only [hiy]; omega
    have hia : ix * iy ≤ (a.x2 - a.x1) * (a.y2 - a.y1) := by
      have h1 : ix ≤ a.x2 - a.x1 := by simp only [hix]; omega
      have h2 : iy ≤ a.y2 - a.y1 := by simp only [hiy]; omega
      exact mul_le_mul h1 h2 (by omega) (by omega)
    have hib : ix * iy ≤ (b.x2 - b.x1) * (b.y2 - b.y1) := by
      have h1 : ix ≤ b.x2 - b.x1 := by simp only [hix]; omega
      have h2 : iy ≤ b.y2 - b.y1 := by simp only [hiy]; omega
      exact mul_le_mul h1 h2 (by omega) (by omega)
    have hinter : (0 : ℚ) < ((ix * iy : Int) : ℚ) := by
      exact_mod_cast mul_pos hixpos hiypos
    have hunion : ((ix * iy : Int) : ℚ) ≤
        (((a.x2 - a.x1) * (a.y2 - a.y1) : Int) : ℚ) +
          (((b.x2 - b.x1) * (b.y2 - b.y1) : Int) : ℚ) - ((ix * iy : Int) : ℚ) := by
      have hia' : ((ix * iy : Int) : ℚ) ≤ (((a.x2 - a.x1) * (a.y2 - a.y1) : Int) : ℚ) := by
        exact_mod_cast hia
      have hib' : ((ix * iy : Int) : ℚ) ≤ (((b.x2 - b.x1) * (b.y2 - b.y1) : Int) : ℚ) := by
        exact_mod_cast hib
      linarith
    have hupos : (0 : ℚ) <
        (((a.x2 - a.x1) * (a.y2 - a.y1) : Int) : ℚ) +
          (((b.x2 - b.x1) * (b.y2 - b.y1) : Int) : ℚ) - ((ix * iy : Int) : ℚ) := by
      linarith
    constructor
    · push_cast
      push_cast at hinter hupos
      positivity
    · rw [div_le_one hupos]
      linarith

/-- For a well-formed box, the IoU with itself is `1`. -/
theorem calculateIOU_self (b : Box) (hb : b.wf) : calculateIOU b b = 1 := by
  simp only [calculateIOU, max_self, min_self]
  obtain ⟨h1, h2, h3, h4, h5, h6⟩ := hb
  rw [if_neg (by omega)]
  rw [area_eq_of_wf b ⟨h1, h2, h3, h4, h5, h6⟩]
  have hpos : (0 : ℚ) < (((b.x2 - b.x1) * (b.y2 - b.y1) : Int) : ℚ) := by
    exact_mod_cast mul_pos (by omega : (0 : Int) < b.x2 - b.x1) (by omega : (0 : Int) < b.y2 - b.y1)
  have : (((b.x2 - b.x1) * (b.y2 - b.y1) : Int) : ℚ) +
      (((b.x2 - b.x1) * (b.y2 - b.y1) : Int) : ℚ) -
      (((b.x2 - b.x1) * (b.y2 - b.y1) : Int) : ℚ) =
      (((b.x2 - b.x1) * (b.y2 - b.y1) : Int) : ℚ) := by ring
  rw [this]
  exact div_self (ne_of_gt hpos)

/-- C6 counterexample: the degenerate box `(0,0,0,0)` compared with itself —
two *identical* boxes — has IoU `0`, not `1` (the `x2 <= x1` guard fires), so
the claim fails as stated over all `[4]int32` corner tuples. -/
theorem claim6_counterexample :
    calculateIOU ⟨0, 0, 0, 0⟩ ⟨0, 0, 0, 0⟩ = 0
    ∧ calculateIOU ⟨0, 0, 0, 0⟩ ⟨0, 0, 0, 0⟩ ≠ 1 := by
  constructor
  · decide
  · decide

/-- C6 as amended: restricted to well-formed boxes (nondegenerate, and inside
a coordinate range where the `int32` area products cannot overflow), IoU is
symmetric, lies in `[0, 1]`, is `0` on disjoint boxes and `1` on identical
boxes. -/
theorem claim6_amended (a b : Box) (ha : a.wf) (hb : b.wf) :
    calculateIOU a b = calculateIOU b a
    ∧ 0 ≤ calculateIOU a b
    ∧ calculateIOU a b ≤ 1
    ∧ (a.disjoint b → calculateIOU a b = 0)
    ∧ (a = b → calculateIOU a b = 1) := by
  refine ⟨calculateIOU_comm a b, (calculateIOU_mem_unit a b ha hb).1,
    (calculateIOU_mem_unit a b ha hb).2, ?_, ?_⟩
  · intro hd
    simp only [calculateIOU]
    rw [if_pos]
    unfold Box.disjoint at hd
    omega
  · intro he
    subst he
    exact calculateIOU_self a ha

/-- Witness for C6 at two overlapping well-formed boxes. -/
theorem claim6_witness :
    ((⟨0, 0, 10, 10⟩ : Box).wf ∧ (⟨5, 5, 15, 15⟩ : Box).wf)
    ∧ (calculateIOU ⟨0, 0, 10, 10⟩ ⟨5, 5, 15, 15⟩ =
        calculateIOU ⟨5, 5, 15, 15⟩ ⟨0, 0, 10, 10⟩
      ∧ 0 ≤ calculateIOU ⟨0, 0, 10, 10⟩ ⟨5, 5, 15, 15⟩
      ∧ calculateIOU ⟨0, 0, 10, 10⟩ ⟨5, 5, 15, 15⟩ ≤ 1
      ∧ ((⟨0, 0, 10, 10⟩ : Box).disjoint ⟨5, 5, 15, 15⟩ →
          calculateIOU ⟨0, 0, 10, 10⟩ ⟨5, 5, 15, 15⟩ = 0)
      ∧ ((⟨0, 0, 10, 10⟩ : Box) = ⟨5, 5, 15, 15⟩ →
          calculateIOU ⟨0, 0, 10, 10⟩ ⟨5, 5, 15, 15⟩ = 1)) :=
  ⟨⟨by decide, by decide⟩, claim6_amended _ _ (by decide) (by decide)⟩

/-! ### Postprocessor lemmas -/

@[simp]
theorem goBind_ok {α β : Type} (a : α) (f : α → Except GoErr β) :
    (Except.ok a >>= f) = f a := rfl

@[simp]
theorem goBind_err {α β : Type} (e : GoErr) (f : α → Except GoErr β) :
    ((Except.error e : Except GoErr α) >>= f) = .error e := rfl

theorem Slice.read_ok {s : Slice} {i : Nat} (h : i < s.len) :
    s.read i = .ok (s.get i) := if_pos h

theorem Slice.read_err {s : Slice} {i : Nat} (h : ¬ i < s.len) :
    s.read i = .error .indexOutOfRange := if_neg h

theorem mem_rangeFrom {i : Nat} : ∀ {lo n : Nat},
    i ∈ rangeFrom lo n ↔ lo ≤ i ∧ i < lo + n := by
  intro lo n
  induction n generalizing lo with
  | zero => simp [rangeFrom]
  | succ m ih =>
    simp only [rangeFrom, List.mem_cons, ih]
    omega

theorem rangeFrom_add (m : Nat) : ∀ (lo k : Nat),
    rangeFrom lo (m + k) = rangeFrom lo m ++ rangeFrom (lo + m) k := by
  induction m with
  | zero => intro lo k; simp [rangeFrom]
  | succ p ih =>
    intro lo k
    have hshape : p + 1 + k = (p + k) + 1 := by omega
    rw [hshape]
    show lo :: rangeFrom (lo + 1) (p + k) = (lo :: rangeFrom (lo + 1) p) ++ rangeFrom (lo + (p + 1)) k
    rw [List.cons_append, ih (lo + 1) k]
    have : lo + 1 + p = lo + (p + 1) := by omega
    rw [this]

/-- A cell whose plane-4 read is in range produces exactly its (optional)
detection. -/
theorem processCell_ok (s : Slice) (grid : Nat) (thr W H ow oh : ℚ) (i : Nat)
    (hi : 4 * grid + i < s.len) :
    processCell s grid thr W H ow oh i =
      .ok (if thr ≤ s.get (4 * grid + i) then [cellDetection s grid W H ow oh i] else []) := by
  unfold processCell
  rw [Slice.read_ok hi]
  by_cases hp : thr ≤ s.get (4 * grid + i)
  · simp only [goBind_ok, if_pos hp,
      Slice.read_ok (show i < s.len by omega),
      Slice.read_ok (show grid + i < s.len by omega),
      Slice.read_ok (show 2 * grid + i < s.len by omega),
      Slice.read_ok (show 3 * grid + i < s.len by omega)]
    rfl
  · simp only [goBind_ok, if_neg hp]
    rfl

/-- The sequential loop over in-range cells succeeds with exactly the
passing cells' detections. -/
theorem processCells_ok (s : Slice) (grid : Nat) (thr W H ow oh : ℚ) :
    ∀ idxs : List Nat, (∀ i ∈ idxs, 4 * grid + i < s.len) →
    processCells s grid thr W H ow oh idxs =
      .ok (passingDetections s grid thr W H ow oh idxs) := by
  intro idxs
  induction idxs with
  | nil => intro _; rfl
  | cons i rest ih =>
    intro hin
    have hi : 4 * grid + i < s.len := hin i (List.mem_cons_self i rest)
    have hrest := ih fun j hj => hin j (List.mem_cons_of_mem _ hj)
    simp only [processCells, processCell_ok s grid thr W H ow oh i hi, goBind_ok, hrest]
    simp only [passingDetections, List.filterMap_cons]
    by_cases hp : thr ≤ s.get (4 * grid + i)
    · simp only [if_pos hp, List.singleton_append]
      rfl
    · simp only [if_neg hp, List.nil_append]
      rfl

/-- If some cell's plane-4 index is out of range, the sequential loop
panics. -/
theorem processCells_panic (s : Slice) (grid : Nat) (thr W H ow oh : ℚ) :
    ∀ idxs : List Nat, (∃ i ∈ idxs, s.len ≤ 4 * grid + i) →
    processCells s grid thr W H ow oh idxs = .error .indexOutOfRange := by
  intro idxs
  induction idxs with
  | nil => rintro ⟨i, hi, _⟩; cases hi
  | cons i rest ih =>
    rintro ⟨j, hj, hjlen⟩
    by_cases hi : 4 * grid + i < s.len
    · have hrest : ∃ k ∈ rest, s.len ≤ 4 * grid + k := by
        rcases List.mem_cons.mp hj with h | h
        · subst h; omega
        · exact ⟨j, h, hjlen⟩
      simp [processCells, processCell_ok s grid thr W H ow oh i hi, ih hrest]
    · simp [processCells, processCell, Slice.read_err hi]

/-- Splitting the index list splits the sequential loop into a fork-join of
the two halves. -/
theorem processCells_append (s : Slice) (grid : Nat) (thr W H ow oh : ℚ) :
    ∀ l1 l2 : List Nat,
    processCells s grid thr W H ow oh (l1 ++ l2) = (do
      let a ← processCells s grid thr W H ow oh l1
      let b ← processCells s grid thr W H ow oh l2
      pure (a ++ b)) := by
  intro l1 l2
  induction l1 with
  | nil =>
    simp only [List.nil_append, processCells, goBind_ok]
    cases h : processCells s grid thr W H ow oh l2 <;> simp
  | cons x xs ih =>
    rw [List.cons_append]
    simp only [processCells]
    rw [ih]
    cases hx : processCell s grid thr W H ow oh x with
    | error e => rfl
    | ok d =>
      simp only [goBind_ok]
      cases hxs : processCells s grid thr W H ow oh xs with
      | error e => rfl
      | ok a =>
        simp only [goBind_ok]
        cases h2 : processCells s grid thr W H ow oh l2 with
        | error e => rfl
        | ok b => simp [List.append_assoc]

/-- The fork-join range evaluation equals the sequential loop whenever the
fuel covers the range size. -/
theorem processRange_eq_processCells (s : Slice) (grid : Nat) (thr W H ow oh : ℚ) :
    ∀ (fuel n lo : Nat), n ≤ 2 ^ fuel →
    processRange s grid thr W H ow oh fuel lo n =
      processCells s grid thr W H ow oh (rangeFrom lo n) := by
  intro fuel
  induction fuel with
  | zero =>
    intro n lo hn
    interval_cases n
    · rfl
    · show processCell s grid thr W H ow oh lo = _
      simp only [rangeFrom, processCells]
      cases hc : processCell s grid thr W H ow oh lo <;> simp
  | succ f ih =>
    intro n lo hn
    match n with
    | 0 => rfl
    | 1 =>
      show processCell s grid thr W H ow oh lo = _
      simp only [rangeFrom, processCells]
      cases hc : processCell s grid thr W H ow oh lo <;> simp
    | (m + 2) =>
      have hpow : 2 ^ (f + 1) = 2 * 2 ^ f := by ring
      have h1 : (m + 2) / 2 ≤ 2 ^ f := by omega
      have h2 : (m + 2) - (m + 2) / 2 ≤ 2 ^ f := by omega
      have hsplit : rangeFrom lo (m + 2) =
          rangeFrom lo ((m + 2) / 2) ++ rangeFrom (lo + (m + 2) / 2) ((m + 2) - (m + 2) / 2) := by
        have hmk : (m + 2) = (m + 2) / 2 + ((m + 2) - (m + 2) / 2) := by omega
        conv_lhs => rw [hmk]
        exact rangeFrom_add _ lo _
      show (do
          let a ← processRange s grid thr W H ow oh f lo ((m + 2) / 2)
          let b ← processRange s grid thr W H ow oh f (lo + (m + 2) / 2) ((m + 2) - (m + 2) / 2)
          pure (a ++ b)) =
        processCells s grid thr W H ow oh (rangeFrom lo (m + 2))
      rw [ih _ lo h1, ih _ (lo + (m + 2) / 2) h2, hsplit,
        processCells_append s grid thr W H ow oh]

/-- Inserting into the sorted prefix is a permutation of consing. -/
theorem insertByConfidence_perm (d : Detection) :
    ∀ l : List Detection, (insertByConfidence d l).Perm (d :: l) := by
  intro l
  induction l with
  | nil => exact List.Perm.refl _
  | cons e es ih =>
    by_cases h : e.confidence < d.confidence
    · simp [insertByConfidence, h]
    · simp only [insertByConfidence, if_neg h]
      exact (ih.cons e).trans (List.Perm.swap d e es)

/-- The confidence sort permutes its input. -/
theorem sortDetectionsByConfidence_perm :
    ∀ l : List Detection, (sortDetectionsByConfidence l).Perm l := by
  intro l
  induction l with
  | nil => exact .refl _
  | cons d ds ih => exact (insertByConfidence_perm d _).trans (ih.cons d)

/-- Insertion preserves the non-increasing-confidence order. -/
theorem insertByConfidence_sorted (d : Detection) :
    ∀ l : List Detection,
      l.Pairwise (fun a b => b.confidence ≤ a.confidence) →
      (insertByConfidence d l).Pairwise (fun a b => b.confidence ≤ a.confidence) := by
  intro l
  induction l with
  | nil => intro _; simp [insertByConfidence]
  | cons e es ih =>
    intro h
    rw [List.pairwise_cons] at h
    obtain ⟨he, hes⟩ := h
    by_cases hc : e.confidence < d.confidence
    · simp only [insertByConfidence, if_pos hc]
      refine List.Pairwise.cons ?_ (List.Pairwise.cons he hes)
      intro x hx
      rcases List.mem_cons.mp hx with rfl | hx
      · exact le_of_lt hc
      · exact (he x hx).trans (le_of_lt hc)
    · simp only [insertByConfidence, if_neg hc]
      refine List.Pairwise.cons ?_ (ih hes)
      intro x hx
      have hx' : x ∈ d :: es := (insertByConfidence_perm d es).mem_iff.mp hx
      rcases List.mem_cons.mp hx' with rfl | hx'
      · exact le_of_not_lt hc
      · exact he x hx'

/-- The confidence sort produces a non-increasing list. -/
theorem sortDetectionsByConfidence_sorted :
    ∀ l : List Detection,
      (sortDetectionsByConfidence l).Pairwise (fun a b => b.confidence ≤ a.confidence) := by
  intro l
  induction l with
  | nil => simp [sortDetectionsByConfidence]
  | cons d ds ih => exact insertByConfidence_sorted d _ ih

/-- When the buffer is long enough for all five planes, the core
postprocessor succeeds and its output is a confidence-sorted permutation of
the passing cells' detections. -/
theorem processPredictionsCore_spec (s : Slice) (grid : Nat) (thr W H ow oh : ℚ)
    (dets : List Detection)
    (hgrid : grid ≤ 2 ^ 32)
    (hlen : 5 * grid ≤ s.len)
    (h : processPredictionsCore s grid thr W H ow oh = .ok dets) :
    dets.Perm (passingDetections s grid thr W H ow oh (rangeFrom 0 grid))
    ∧ dets.Pairwise (fun a b => b.confidence ≤ a.confidence) := by
  unfold processPredictionsCore at h
  rw [processRange_eq_processCells s grid thr W H ow oh 32 grid 0 hgrid] at h
  rw [processCells_ok s grid thr W H ow oh _ ?hin] at h
  case hin =>
    intro i hi
    have := (mem_rangeFrom.mp hi).2
    omega
  simp only [goBind_ok] at h
  have hd : (if (passingDetections s grid thr W H ow oh (rangeFrom 0 grid)).isEmpty
      then passingDetections s grid thr W H ow oh (rangeFrom 0 grid)
      else sortDetectionsByConfidence
        (passingDetections s grid thr W H ow oh (rangeFrom 0 grid))) = dets :=
    Except.ok.inj h
  by_cases he : (passingDetections s grid thr W H ow oh (rangeFrom 0 grid)).isEmpty
  · rw [if_pos he] at hd
    subst hd
    refine ⟨List.Perm.refl _, ?_⟩
    rw [List.isEmpty_iff] at he
    rw [he]
    exact List.Pairwise.nil
  · rw [if_neg he] at hd
    subst hd
    exact ⟨sortDetectionsByConfidence_perm _, sortDetectionsByConfidence_sorted _⟩

/-- Every detection in the core output is the decode of some passing cell. -/
theorem processPredictionsCore_mem (s : Slice) (grid : Nat) (thr W H ow oh : ℚ)
    (dets : List Detection)
    (hgrid : grid ≤ 2 ^ 32)
    (hlen : 5 * grid ≤ s.len)
    (h : processPredictionsCore s grid thr W H ow oh = .ok dets) :
    ∀ d ∈ dets, ∃ i < grid, thr ≤ s.get (4 * grid + i)
      ∧ d = cellDetection s grid W H ow oh i := by
  intro d hd
  have hperm := (processPredictionsCore_spec s grid thr W H ow oh dets hgrid hlen h).1
  have hmem : d ∈ passingDetections s grid thr W H ow oh (rangeFrom 0 grid) :=
    hperm.mem_iff.mp hd
  simp only [passingDetections, List.mem_filterMap] at hmem
  obtain ⟨i, hi, hopt⟩ := hmem
  have hlt : i < grid := by
    have := (mem_rangeFrom.mp hi).2
    omega
  by_cases hp : thr ≤ s.get (4 * grid + i)
  · rw [if_pos hp] at hopt
    exact ⟨i, hlt, hp, (Option.some.inj hopt).symm⟩
  · rw [if_neg hp] at hopt
    cases hopt

/-- `calculateBBox` is literally the amended decoding rule. -/
theorem calculateBBox_eq_specBBoxAmended (cx cy w h ow oh W H : ℚ) :
    calculateBBox cx cy w h ow oh W H = specBBoxAmended cx cy w h ow oh W H := rfl

theorem max32_zero_nonneg (v : ℚ) : 0 ≤ max32 0 v := by
  unfold max32
  split
  · exact le_refl 0
  · exact le_of_not_lt (by assumption)

theorem minF32_le_left (a b : ℚ) : minF32 a b ≤ a := by
  unfold minF32
  split
  · exact le_refl a
  · exact le_of_not_lt (by assumption)

theorem int32ofF32_nonneg {q : ℚ} (h : 0 ≤ q) : 0 ≤ int32ofF32 q := by
  unfold int32ofF32
  rw [if_pos h]
  exact Int.floor_nonneg.mpr h

theorem int32ofF32_le_of_le {q B : ℚ} (hB : 0 ≤ B) (h : q ≤ B) :
    (int32ofF32 q : ℚ) ≤ B := by
  unfold int32ofF32
  by_cases h0 : 0 ≤ q
  · rw [if_pos h0]
    exact (Int.floor_le q).trans h
  · rw [if_neg h0]
    have hq : q ≤ 0 := le_of_lt (lt_of_not_ge h0)
    have h1 : ⌈q⌉ ≤ (0 : Int) := Int.ceil_le.mpr (by exact_mod_cast hq)
    have h2 : ((⌈q⌉ : Int) : ℚ) ≤ 0 := by exact_mod_cast h1
    exact h2.trans hB

/-- The one-sided clamping `calculateBBox` actually performs: the lower
corner is at least 0 and the upper corner at most the original dimension. -/
theorem calculateBBox_bounds (cx cy w h ow oh W H : ℚ) (how : 0 ≤ ow) (hoh : 0 ≤ oh) :
    0 ≤ (calculateBBox cx cy w h ow oh W H).x1
    ∧ 0 ≤ (calculateBBox cx cy w h ow oh W H).y1
    ∧ ((calculateBBox cx cy w h ow oh W H).x2 : ℚ) ≤ ow
    ∧ ((calculateBBox cx cy w h ow oh W H).y2 : ℚ) ≤ oh :=
  ⟨int32ofF32_nonneg (max32_zero_nonneg _), int32ofF32_nonneg (max32_zero_nonneg _),
   int32ofF32_le_of_le how (minF32_le_left _ _), int32ofF32_le_of_le hoh (minF32_le_left _ _)⟩

/-- C7: for a buffer of the expected length `C·G`, both build profiles emit
exactly one detection per grid cell whose plane-4 confidence is ≥ the
threshold (and nothing else, stated as a permutation of the passing cells'
decodes), and the returned list is non-increasing in confidence. -/
theorem claim7_filter_sorted :
    (∀ (s : Slice) (ow oh : ℚ) (dets : List Detection), s.len = 6 * 1344 →
      processPredictions1344 s ow oh = .ok dets →
      dets.Perm (passingDetections s 1344 (4/5) 256 256 ow oh (rangeFrom 0 1344))
      ∧ dets.Pairwise (fun a b => b.confidence ≤ a.confidence))
    ∧ (∀ (s : Slice) (ow oh : ℚ) (dets : List Detection), s.len = 5 * 8400 →
      processPredictions8400 s ow oh = .ok dets →
      dets.Perm (passingDetections s 8400 (3/5) 640 640 ow oh (rangeFrom 0 8400))
      ∧ dets.Pairwise (fun a b => b.confidence ≤ a.confidence)) := by
  constructor
  · intro s ow oh dets hlen h
    unfold processPredictions1344 at h
    rw [if_neg (by omega)] at h
    exact processPredictionsCore_spec s 1344 (4/5) 256 256 ow oh dets (by norm_num)
      (by omega) h
  · intro s ow oh dets hlen h
    exact processPredictionsCore_spec s 8400 (3/5) 640 640 ow oh dets (by norm_num)
      (by omega) h

set_option maxRecDepth 40000 in
/-- Witness for C7 on a concrete 6×1344 buffer with one passing cell. -/
theorem claim7_witness :
    (buf1344one.len = 6 * 1344
      ∧ processPredictions1344 buf1344one 256 256 = .ok [⟨⟨96, 96, 160, 160⟩, 1⟩])
    ∧ (([⟨⟨96, 96, 160, 160⟩, 1⟩] : List Detection).Perm
        (passingDetections buf1344one 1344 (4/5) 256 256 256 256 (rangeFrom 0 1344))
      ∧ ([⟨⟨96, 96, 160, 160⟩, 1⟩] : List Detection).Pairwise
          (fun a b => b.confidence ≤ a.confidence)) := by
  have heq : processPredictions1344 buf1344one 256 256 = .ok [⟨⟨96, 96, 160, 160⟩, 1⟩] := by
    decide
  exact ⟨⟨rfl, heq⟩, claim7_filter_sorted.1 buf1344one 256 256 _ rfl heq⟩

set_option maxRecDepth 40000 in
/-- C1 counterexample: on a buffer whose single passing cell has raw planes
`(cx, cy, w, h) = (0.5, 0.5, 0.25, 0.25)` with `origWidth = origHeight =
W = H = 256`, the pipeline emits the box `(96, 96, 160, 160)` — the code
multiplies the plane values by the input size before the center-to-corner
conversion — while the conversion exactly as the claim states it (no
rescaling of the plane values by the input size) would yield `(0, 0, 0, 0)`. -/
theorem claim1_counterexample :
    processPredictions1344 buf1344one 256 256 = .ok [⟨⟨96, 96, 160, 160⟩, 1⟩]
    ∧ specBBoxClaimed (buf1344one.get 0) (buf1344one.get 1344) (buf1344one.get 2688)
        (buf1344one.get 4032) 256 256 256 256 = ⟨0, 0, 0, 0⟩
    ∧ (⟨⟨96, 96, 160, 160⟩, 1⟩ : Detection).bbox ≠ (⟨0, 0, 0, 0⟩ : Box) := by
  refine ⟨by decide, by decide, by decide⟩

/-- C1 as amended: every emitted detection of either profile is obtained by
first multiplying the four raw plane values by the model input size (they are
treated as normalized), then converting center form to corners, then
rescaling by `scaleX = origWidth / W` and `scaleY = origHeight / H`, clamping
and truncating. -/
theorem claim1_amended :
    (∀ (s : Slice) (ow oh : ℚ) (dets : List Detection), s.len = 6 * 1344 →
      processPredictions1344 s ow oh = .ok dets →
      ∀ d ∈ dets, ∃ i < 1344, ((4 : ℚ)/5) ≤ s.get (4 * 1344 + i)
        ∧ d.confidence = s.get (4 * 1344 + i)
        ∧ d.bbox = specBBoxAmended (s.get i) (s.get (1344 + i)) (s.get (2 * 1344 + i))
            (s.get (3 * 1344 + i)) ow oh 256 256)
    ∧ (∀ (s : Slice) (ow oh : ℚ) (dets : List Detection), s.len = 5 * 8400 →
      processPredictions8400 s ow oh = .ok dets →
      ∀ d ∈ dets, ∃ i < 8400, ((3 : ℚ)/5) ≤ s.get (4 * 8400 + i)
        ∧ d.confidence = s.get (4 * 8400 + i)
        ∧ d.bbox = specBBoxAmended (s.get i) (s.get (8400 + i)) (s.get (2 * 8400 + i))
            (s.get (3 * 8400 + i)) ow oh 640 640) := by
  constructor
  · intro s ow oh dets hlen h d hd
    have h' : processPredictionsCore s 1344 (4/5) 256 256 ow oh = .ok dets := by
      unfold processPredictions1344 at h
      rwa [if_neg (by omega)] at h
    obtain ⟨i, hlt, hp, hdet⟩ :=
      processPredictionsCore_mem s 1344 (4/5) 256 256 ow oh dets (by norm_num)
        (by omega) h' d hd
    exact ⟨i, hlt, hp, by rw [hdet]; rfl, by
      rw [hdet]
      exact calculateBBox_eq_specBBoxAmended _ _ _ _ _ _ _ _⟩
  · intro s ow oh dets hlen h d hd
    obtain ⟨i, hlt, hp, hdet⟩ :=
      processPredictionsCore_mem s 8400 (3/5) 640 640 ow oh dets (by norm_num)
        (by omega) h d hd
    exact ⟨i, hlt, hp, by rw [hdet]; rfl, by
      rw [hdet]
      exact calculateBBox_eq_specBBoxAmended _ _ _ _ _ _ _ _⟩

set_option maxRecDepth 40000 in
/-- Witness for C1 on the same concrete buffer. -/
theorem claim1_witness :
    (buf1344one.len = 6 * 1344
      ∧ processPredictions1344 buf1344one 256 256 = .ok [⟨⟨96, 96, 160, 160⟩, 1⟩])
    ∧ ∀ d ∈ ([⟨⟨96, 96, 160, 160⟩, 1⟩] : List Detection), ∃ i < 1344,
        ((4 : ℚ)/5) ≤ buf1344one.get (4 * 1344 + i)
        ∧ d.confidence = buf1344one.get (4 * 1344 + i)
        ∧ d.bbox = specBBoxAmended (buf1344one.get i) (buf1344one.get (1344 + i))
            (buf1344one.get (2 * 1344 + i)) (buf1344one.get (3 * 1344 + i)) 256 256 256 256 := by
  have heq : processPredictions1344 buf1344one 256 256 = .ok [⟨⟨96, 96, 160, 160⟩, 1⟩] := by
    decide
  exact ⟨⟨rfl, heq⟩, claim1_amended.1 buf1344one 256 256 _ rfl heq⟩

/-- C2 as amended: only the 6×1344 profile validates the buffer length — it
returns the length-mismatch error (and no detections) for every buffer of the
wrong length.  The 5×8400 profile performs no length validation: a too-short
buffer makes it panic with an index-out-of-range access (a longer buffer is
processed with no error at all, see the counterexample). -/
theorem claim2_amended :
    (∀ (s : Slice) (ow oh : ℚ), s.len ≠ 6 * 1344 →
      processPredictions1344 s ow oh = .error (.lengthMismatch s.len (6 * 1344)))
    ∧ (∀ (s : Slice) (ow oh : ℚ), s.len < 5 * 8400 →
      processPredictions8400 s ow oh = .error .indexOutOfRange) := by
  constructor
  · intro s ow oh h
    unfold processPredictions1344
    rw [if_pos h]
  · intro s ow oh h
    unfold processPredictions8400 processPredictionsCore
    rw [processRange_eq_processCells s 8400 (3/5) 640 640 ow oh 32 8400 0 (by norm_num)]
    rw [processCells_panic s 8400 (3/5) 640 640 ow oh _
      ⟨8399, mem_rangeFrom.mpr ⟨by omega, by omega⟩, by omega⟩]
    rfl

set_option maxRecDepth 100000 in
set_option maxHeartbeats 4000000 in
/-- C2 counterexample: a buffer of length `42001 ≠ 5·8400` — cell 0 passing
with confidence 1 — on which the 5×8400 `processPredictions` returns *no*
error and one detection, contradicting the claim that a length mismatch is
rejected in both build profiles. -/
theorem claim2_counterexample :
    buf8400long.len ≠ 5 * 8400
    ∧ processPredictions8400 buf8400long 100 100 = .ok [⟨⟨0, 0, 0, 0⟩, 1⟩] := by
  refine ⟨by decide, by decide⟩

/-- Witness for C2 on the empty buffer: the 6×1344 profile reports the
length mismatch, the 5×8400 profile panics. -/
theorem claim2_witness :
    (bufEmpty.len ≠ 6 * 1344 ∧ bufEmpty.len < 5 * 8400)
    ∧ processPredictions1344 bufEmpty 1 1 = .error (.lengthMismatch bufEmpty.len (6 * 1344))
    ∧ processPredictions8400 bufEmpty 1 1 = .error .indexOutOfRange :=
  ⟨⟨by decide, by decide⟩, claim2_amended.1 bufEmpty 1 1 (by decide),
    claim2_amended.2 bufEmpty 1 1 (by decide)⟩

set_option maxRecDepth 40000 in
/-- C5 counterexample: with arbitrary float32 plane values allowed, a passing
cell with negative raw width/height (`cx = cy = 0`, `w = h = -4`) makes the
6×1344 pipeline emit the detection `(512, 512, -512, -512)` at
`origWidth = origHeight = 256`: it violates `x1 ≤ x2`, `0 ≤ x2` and
`x1 ≤ origWidth`, because each coordinate is clamped on one side only. -/
theorem claim5_counterexample :
    ((0 : ℚ) < 256 ∧ (0 : ℚ) < 256)
    ∧ processPredictions1344 buf1344neg 256 256 = .ok [⟨⟨512, 512, -512, -512⟩, 1⟩]
    ∧ ¬ ((512 : Int) ≤ -512)
    ∧ ¬ ((0 : Int) ≤ -512)
    ∧ ¬ ((512 : Int) ≤ 256) := by
  refine ⟨⟨by norm_num, by norm_num⟩, by decide, by decide, by decide, by decide⟩

/-- C5 as amended: every emitted detection satisfies the one-sided bounds the
code actually enforces — `0 ≤ x1`, `0 ≤ y1`, `x2 ≤ origWidth`,
`y2 ≤ origHeight` — for nonnegative original dimensions, in both profiles.
(The other claimed inequalities `x1 ≤ x2`, `y1 ≤ y2`, `x2 ≥ 0`,
`x1 ≤ origWidth`, … can fail; see the counterexample.) -/
theorem claim5_amended :
    (∀ (s : Slice) (ow oh : ℚ) (dets : List Detection), s.len = 6 * 1344 →
      0 ≤ ow → 0 ≤ oh → processPredictions1344 s ow oh = .ok dets →
      ∀ d ∈ dets, 0 ≤ d.bbox.x1 ∧ 0 ≤ d.bbox.y1
        ∧ (d.bbox.x2 : ℚ) ≤ ow ∧ (d.bbox.y2 : ℚ) ≤ oh)
    ∧ (∀ (s : Slice) (ow oh : ℚ) (dets : List Detection), s.len = 5 * 8400 →
      0 ≤ ow → 0 ≤ oh → processPredictions8400 s ow oh = .ok dets →
      ∀ d ∈ dets, 0 ≤ d.bbox.x1 ∧ 0 ≤ d.bbox.y1
        ∧ (d.bbox.x2 : ℚ) ≤ ow ∧ (d.bbox.y2 : ℚ) ≤ oh) := by
  constructor
  · intro s ow oh dets hlen how hoh h d hd
    have h' : processPredictionsCore s 1344 (4/5) 256 256 ow oh = .ok dets := by
      unfold processPredictions1344 at h
      rwa [if_neg (by omega)] at h
    obtain ⟨i, _, _, hdet⟩ :=
      processPredictionsCore_mem s 1344 (4/5) 256 256 ow oh dets (by norm_num)
        (by omega) h' d hd
    rw [hdet]
    exact calculateBBox_bounds _ _ _ _ ow oh _ _ how hoh
  · intro s ow oh dets hlen how hoh h d hd
    obtain ⟨i, _, _, hdet⟩ :=
      processPredictionsCore_mem s 8400 (3/5) 640 640 ow oh dets (by norm_num)
        (by omega) h d hd
    rw [hdet]
    exact calculateBBox_bounds _ _ _ _ ow oh _ _ how hoh

set_option maxRecDepth 40000 in
/-- Witness for C5 on the concrete buffer with one passing cell. -/
theorem claim5_witness :
    (buf1344one.len = 6 * 1344 ∧ (0 : ℚ) ≤ 256
      ∧ processPredictions1344 buf1344one 256 256 = .ok [⟨⟨96, 96, 160, 160⟩, 1⟩])
    ∧ ∀ d ∈ ([⟨⟨96, 96, 160, 160⟩, 1⟩] : List Detection),
        0 ≤ d.bbox.x1 ∧ 0 ≤ d.bbox.y1
        ∧ (d.bbox.x2 : ℚ) ≤ 256 ∧ (d.bbox.y2 : ℚ) ≤ 256 := by
  have heq : processPredictions1344 buf1344one 256 256 = .ok [⟨⟨96, 96, 160, 160⟩, 1⟩] := by
    decide
  exact ⟨⟨rfl, by norm_num, heq⟩,
    claim5_amended.1 buf1344one 256 256 _ rfl (by norm_num) (by norm_num) heq⟩

/-! ### Clustering lemmas -/

/-- `List.any` is invariant under permutation. -/
theorem any_congr_perm {α : Type} (p : α → Bool) {B C : List α} (h : B.Perm C) :
    B.any p = C.any p := by
  cases hb : B.any p with
  | true =>
    rw [List.any_eq_true] at hb
    obtain ⟨x, hx, hpx⟩ := hb
    exact (List.any_eq_true.mpr ⟨x, h.mem_iff.mp hx, hpx⟩).symm
  | false =>
    rw [List.any_eq_false] at hb
    symm
    rw [List.any_eq_false]
    intro x hx
    exact hb x (h.mem_iff.mpr hx)

/-- The noise-absorption scan over the map equals the scan over its flattened
box list. -/
theorem anyClusterOverlap_eq (b : Box) :
    ∀ m : ClusterMap,
    anyClusterOverlap m b = (boxesOf m).any fun e => IouThreshold < calculateIOU b e := by
  intro m
  induction m with
  | nil => rfl
  | cons kb rest ih =>
    simp only [anyClusterOverlap, List.any_cons] at ih ⊢
    simp only [boxesOf, List.map_cons, List.flatten_cons, List.any_append]
    rw [ih]
    rfl

/-- Appending a box to a cluster entry permutes the flattened boxes to a
plain append. -/
theorem boxesOf_mapAppend (k : Int) (v : Box) :
    ∀ m : ClusterMap, (boxesOf (mapAppend m k v)).Perm (boxesOf m ++ [v]) := by
  intro m
  induction m with
  | nil => simp [mapAppend, boxesOf]
  | cons kb rest ih =>
    obtain ⟨q, bs⟩ := kb
    by_cases hq : q = k
    · simp only [mapAppend, if_pos hq, boxesOf, List.map_cons, List.flatten_cons]
      rw [List.append_assoc, List.append_assoc]
      exact List.Perm.append_left bs List.perm_append_comm
    · simp only [mapAppend, if_neg hq, boxesOf, List.map_cons, List.flatten_cons]
      rw [List.append_assoc]
      exact List.Perm.append_left bs ih

/-- The surviving noise boxes only depend on the clustered boxes up to
permutation. -/
theorem keptNoise_congr_perm :
    ∀ (pairs : List (Box × Int)) {B C : List Box}, B.Perm C →
    keptNoise pairs B = keptNoise pairs C := by
  intro pairs
  induction pairs with
  | nil => intro B C _; rfl
  | cons p rest ih =>
    intro B C h
    obtain ⟨b, c⟩ := p
    by_cases hc : c = -1
    · simp only [keptNoise, if_pos hc]
      rw [any_congr_perm _ h]
      split
      · exact ih h
      · rw [ih h]
    · simp only [keptNoise, if_neg hc]
      exact ih (h.append_right [b])

theorem extendMap_cons_noise (m : ClusterMap) (b : Box) (c : Int)
    (rest : List (Box × Int)) (hc : c = -1) :
    extendMap m ((b, c) :: rest) = extendMap m rest := by
  simp [extendMap, hc]

theorem extendMap_cons_cluster (m : ClusterMap) (b : Box) (c : Int)
    (rest : List (Box × Int)) (hc : ¬ c = -1) :
    extendMap m ((b, c) :: rest) = extendMap (mapAppend m c b) rest := by
  simp [extendMap, hc]

/-- Characterisation of the grouping loop of `processClusters`: it returns
the extended cluster map together with the standalone noise boxes appended to
`final`. -/
theorem processClustersLoop_spec :
    ∀ (pairs : List (Box × Int)) (m : ClusterMap) (final : List Box),
    processClustersLoop pairs m final =
      (extendMap m pairs, final ++ keptNoise pairs (boxesOf m)) := by
  intro pairs
  induction pairs with
  | nil => intro m final; simp [processClustersLoop, extendMap, keptNoise]
  | cons p rest ih =>
    intro m final
    obtain ⟨b, c⟩ := p
    by_cases hc : c = -1
    · by_cases habs : anyClusterOverlap m b
      · have hloop : processClustersLoop ((b, c) :: rest) m final =
            processClustersLoop rest m final := by
          simp [processClustersLoop, hc, habs]
        have hkept : keptNoise ((b, c) :: rest) (boxesOf m) =
            keptNoise rest (boxesOf m) := by
          simp only [keptNoise, if_pos hc]
          rw [← anyClusterOverlap_eq, if_pos habs]
        rw [hloop, extendMap_cons_noise m b c rest hc, hkept]
        exact ih m final
      · have hloop : processClustersLoop ((b, c) :: rest) m final =
            processClustersLoop rest m (final ++ [b]) := by
          simp [processClustersLoop, hc, habs]
        have hkept : keptNoise ((b, c) :: rest) (boxesOf m) =
            b :: keptNoise rest (boxesOf m) := by
          simp only [keptNoise, if_pos hc]
          rw [← anyClusterOverlap_eq, if_neg habs]
        rw [hloop, extendMap_cons_noise m b c rest hc, hkept, ih m (final ++ [b]),
          List.append_assoc]
        rfl
    · have hloop : processClustersLoop ((b, c) :: rest) m final =
          processClustersLoop rest (mapAppend m c b) final := by
        simp [processClustersLoop, hc]
      have hkept : keptNoise ((b, c) :: rest) (boxesOf m) =
          keptNoise rest (boxesOf (mapAppend m c b)) := by
        simp only [keptNoise, if_neg hc]
        exact keptNoise_congr_perm rest (boxesOf_mapAppend c b m).symm
      rw [hloop, extendMap_cons_cluster m b c rest hc, hkept]
      exact ih (mapAppend m c b) final

/-- Membership in the id accumulator of `clusterIds`. -/
theorem mem_clusterIds_aux (k : Int) :
    ∀ (pairs : List (Box × Int)) (acc : List Int),
    (k ∈ pairs.foldl (fun a p => if p.2 = -1 ∨ p.2 ∈ a then a else a ++ [p.2]) acc
      ↔ k ∈ acc ∨ (k ≠ -1 ∧ ∃ p ∈ pairs, p.2 = k)) := by
  intro pairs
  induction pairs with
  | nil => intro acc; simp
  | cons p rest ih =>
    intro acc
    simp only [List.foldl_cons]
    by_cases hp : p.2 = -1 ∨ p.2 ∈ acc
    · rw [if_pos hp, ih]
      simp only [List.mem_cons]
      constructor
      · rintro (h | ⟨hk, q, hq, hqk⟩)
        · exact Or.inl h
        · exact Or.inr ⟨hk, q, Or.inr hq, hqk⟩
      · rintro (h | ⟨hk, q, (rfl | hq), hqk⟩)
        · exact Or.inl h
        · rcases hp with hp | hp
          · exact absurd (hqk ▸ hp) hk
          · exact Or.inl (hqk ▸ hp)
        · exact Or.inr ⟨hk, q, hq, hqk⟩
    · rw [if_neg hp, ih]
      push_neg at hp
      obtain ⟨hp1, hp2⟩ := hp
      simp only [List.mem_append, List.mem_cons, List.not_mem_nil, or_false]
      constructor
      · rintro ((h | rfl) | ⟨hk, q, hq, hqk⟩)
        · exact Or.inl h
        · exact Or.inr ⟨hp1, p, Or.inl rfl, rfl⟩
        · exact Or.inr ⟨hk, q, Or.inr hq, hqk⟩
      · rintro (h | ⟨hk, q, (rfl | hq), hqk⟩)
        · exact Or.inl (Or.inl h)
        · exact Or.inl (Or.inr hqk.symm)
        · exact Or.inr ⟨hk, q, hq, hqk⟩

/-- A cluster id occurs in `clusterIds` exactly when some non-noise pair
carries it. -/
theorem mem_clusterIds {k : Int} {pairs : List (Box × Int)} :
    k ∈ clusterIds pairs ↔ k ≠ -1 ∧ ∃ p ∈ pairs, p.2 = k := by
  unfold clusterIds
  rw [mem_clusterIds_aux]
  simp

/-- `clusterIds` never contains the noise marker. -/
theorem clusterIds_ne_neg_one {pairs : List (Box × Int)} {k : Int}
    (h : k ∈ clusterIds pairs) : k ≠ -1 :=
  (mem_clusterIds.mp h).1

theorem clusterIds_nodup_aux :
    ∀ (pairs : List (Box × Int)) (acc : List Int), acc.Nodup →
    (pairs.foldl (fun a p => if p.2 = -1 ∨ p.2 ∈ a then a else a ++ [p.2]) acc).Nodup := by
  intro pairs
  induction pairs with
  | nil => intro acc h; exact h
  | cons p rest ih =>
    intro acc h
    simp only [List.foldl_cons]
    by_cases hp : p.2 = -1 ∨ p.2 ∈ acc
    · rw [if_pos hp]; exact ih acc h
    · rw [if_neg hp]
      push_neg at hp
      refine ih _ ?_
      rw [List.nodup_append]
      refine ⟨h, List.nodup_singleton _, ?_⟩
      intro a ha hmem
      rw [List.mem_singleton] at hmem
      exact hp.2 (hmem ▸ ha)

/-- The first-occurrence id list has no duplicates. -/
theorem clusterIds_nodup (pairs : List (Box × Int)) : (clusterIds pairs).Nodup :=
  clusterIds_nodup_aux pairs [] List.nodup_nil

/-- Appending under a fresh key puts the new singleton entry at the end. -/
theorem mapAppend_not_mem (k : Int) (v : Box) :
    ∀ m : ClusterMap, (∀ e ∈ m, e.1 ≠ k) → mapAppend m k v = m ++ [(k, [v])] := by
  intro m
  induction m with
  | nil => intro _; rfl
  | cons e rest ih =>
    intro h
    obtain ⟨q, bs⟩ := e
    have hq : q ≠ k := h (q, bs) (List.mem_cons_self _ _)
    simp only [mapAppend, if_neg hq, List.cons_append]
    rw [ih fun e he => h e (List.mem_cons_of_mem _ he)]

/-- Appending under an existing key of a graph-shaped map extends exactly
that entry. -/
theorem mapAppend_graph (k : Int) (v : Box) :
    ∀ (ids : List Int) (g : Int → List Box), ids.Nodup → k ∈ ids →
    mapAppend (ids.map fun q => (q, g q)) k v =
      ids.map fun q => (q, g q ++ if q = k then [v] else []) := by
  intro ids
  induction ids with
  | nil => intro g _ hk; cases hk
  | cons q rest ih =>
    intro g hnd hk
    rw [List.nodup_cons] at hnd
    obtain ⟨hqrest, hndrest⟩ := hnd
    by_cases hq : q = k
    · simp only [List.map_cons, mapAppend, if_pos hq, if_pos hq]
      congr 1
      apply List.map_congr_left
      intro x hx
      have hxk : x ≠ k := fun hxe => hqrest (hq ▸ hxe ▸ hx)
      rw [if_neg hxk, List.append_nil]
    · have hkrest : k ∈ rest := by
        rcases List.mem_cons.mp hk with h | h
        · exact absurd h.symm hq
        · exact h
      simp only [List.map_cons, mapAppend, if_neg hq, if_neg hq, List.append_nil]
      rw [ih g hndrest hkrest]

/-- The extended map built from the empty map is exactly the per-id grouping
of the non-noise pairs, keyed in first-occurrence order. -/
theorem extendMap_eq_groups :
    ∀ pairs : List (Box × Int),
    extendMap [] pairs = (clusterIds pairs).map fun k => (k, groupBoxes pairs k) := by
  intro pairs
  induction pairs using List.reverseRecOn with
  | nil => rfl
  | append_singleton pairs p ih =>
    obtain ⟨b, c⟩ := p
    have hext : extendMap [] (pairs ++ [(b, c)]) =
        if c = -1 then extendMap [] pairs else mapAppend (extendMap [] pairs) c b := by
      simp [extendMap, List.foldl_append]
    have hids : clusterIds (pairs ++ [(b, c)]) =
        if c = -1 ∨ c ∈ clusterIds pairs then clusterIds pairs
        else clusterIds pairs ++ [c] := by
      simp [clusterIds, List.foldl_append]
    have hgroup : ∀ k, groupBoxes (pairs ++ [(b, c)]) k =
        groupBoxes pairs k ++ (if c = k then [b] else []) := by
      intro k
      simp only [groupBoxes, List.filterMap_append]
      congr 1
      by_cases hck : c = k
      · simp [hck]
      · simp [hck]
    by_cases hc : c = -1
    · rw [hext, if_pos hc, hids, if_pos (Or.inl hc), ih]
      apply List.map_congr_left
      intro k hk
      have hkc : c ≠ k := fun he => clusterIds_ne_neg_one hk (he ▸ hc)
      rw [hgroup k, if_neg hkc, List.append_nil]
    · by_cases hmem : c ∈ clusterIds pairs
      · rw [hext, if_neg hc, hids, if_pos (Or.inr hmem), ih]
        rw [mapAppend_graph c b (clusterIds pairs) (fun k => groupBoxes pairs k)
          (clusterIds_nodup pairs) hmem]
        apply List.map_congr_left
        intro k hk
        have : (if k = c then [b] else []) = (if c = k then [b] else []) := by
          by_cases hkc : k = c
          · rw [if_pos hkc, if_pos hkc.symm]
          · rw [if_neg hkc, if_neg fun h => hkc h.symm]
        rw [hgroup k, this]
      · rw [hext, if_neg hc, hids, if_neg (by tauto), ih]
        rw [mapAppend_not_mem c b _ ?fresh]
        case fresh =>
          intro e he
          obtain ⟨k, hk, rfl⟩ := List.mem_map.mp he
          exact fun hkc => hmem (hkc ▸ hk)
        rw [List.map_append]
        congr 1
        · apply List.map_congr_left
          intro k hk
          have hkc : c ≠ k := fun he => hmem (he ▸ hk)
          rw [hgroup k, if_neg hkc, List.append_nil]
        · have hempty : groupBoxes pairs c = [] := by
            rw [groupBoxes, List.filterMap_eq_nil_iff]
            intro p hp
            by_cases h2 : p.2 = c
            · exact absurd (mem_clusterIds.mpr ⟨hc, p, hp, h2⟩) hmem
            · simp [h2]
          simp only [List.map_cons, List.map_nil]
          rw [hgroup c, if_pos rfl, hempty, List.nil_append]

/-- Every entry of the grouped map is non-empty, so the non-empty filter of
`processClusters` keeps all of them. -/
theorem groupsFilter_eq_self (pairs : List (Box × Int)) :
    ((clusterIds pairs).map fun k => (k, groupBoxes pairs k)).filter
        (fun kb => ¬ kb.2.isEmpty) =
      (clusterIds pairs).map fun k => (k, groupBoxes pairs k) := by
  rw [List.filter_eq_self]
  intro e he
  obtain ⟨k, hk, rfl⟩ := List.mem_map.mp he
  obtain ⟨_, p, hp, hpk⟩ := mem_clusterIds.mp hk
  simp only [decide_eq_true_eq]
  intro hempty
  rw [List.isEmpty_iff] at hempty
  have hnone := List.filterMap_eq_nil_iff.mp hempty p hp
  rw [if_pos hpk] at hnone
  cases hnone

/-- C3 as amended: in the clustering stage, a noise point (`clusterId = −1`)
whose IoU with some already-clustered box exceeds 0.45 is *dropped*: the Go
code appends it to a local copy of the cluster's slice, so it neither appears
in the output nor extends the emitted union, which is computed from the
cluster's non-noise members only.  Every noise point with no such overlap is
emitted unchanged as its own final box (in encounter order, before the
cluster unions). -/
theorem claim3_amended (detections : List Detection) (clusters : List Int) :
    processClusters detections clusters =
      keptNoise ((detections.map Detection.bbox).zip clusters) []
      ++ (clusterIds ((detections.map Detection.bbox).zip clusters)).map
          (fun k => mergeBoxes (groupBoxes ((detections.map Detection.bbox).zip clusters) k)) := by
  unfold processClusters
  simp only [processClustersLoop_spec, extendMap_eq_groups, groupsFilter_eq_self,
    List.map_map, List.nil_append]
  rfl

/-- C3 counterexample: detections `C = (1000,1000,1040,1040)` (cluster 0) and
`N = (1000,1000,1040,1080)` (noise).  `IoU(N, C) = 0.5 > 0.45`, so `N` is
absorbed — yet the emitted output is the bare `[C]`: the union emitted for the
cluster does *not* cover the absorbed noise box (its `y2 = 1080 > 1040`), and
`N` is gone from the output entirely. -/
theorem claim3_counterexample :
    IouThreshold <
      calculateIOU ⟨1000, 1000, 1040, 1080⟩ ⟨1000, 1000, 1040, 1040⟩
    ∧ processClusters
        [⟨⟨1000, 1000, 1040, 1040⟩, 1⟩, ⟨⟨1000, 1000, 1040, 1080⟩, 9/10⟩]
        [0, -1] = [⟨1000, 1000, 1040, 1040⟩]
    ∧ ¬ ((1080 : Int) ≤ 1040)
    ∧ (⟨1000, 1000, 1040, 1080⟩ : Box) ∉ ([⟨1000, 1000, 1040, 1040⟩] : List Box) := by
  refine ⟨by decide, by decide, by decide, by decide⟩

end FaceValidation
